import Mathlib

/-
  Verification of the iterative confidence-driven page classification engine
  (team-1/solution): page records, label canonicalization, prediction fold-in,
  block construction, vision escalation, the bounded iteration loop, and the
  section aggregator.  Confidences are modelled as rationals; Python floats in
  this code are only compared and copied, never combined arithmetically.
-/

namespace AutoComply

/-- Fixed allowed label set (config.ALLOWED_LABELS). -/
def ALLOWED_LABELS : List String :=
  ["Articles & Amendments",
   "By Laws",
   "Unanimous Shareholder Agreement",
   "Minutes & Resolutions",
   "Directors Register",
   "Officers Register",
   "Shareholder Register",
   "Securities Register",
   "Share Certificates",
   "Ultimate Beneficial Owner Register"]

/-- config.BLOCK_SIZE default. -/
def BLOCK_SIZE : Nat := 55

/-- config.CONTEXT_PAGES default. -/
def CONTEXT_PAGES : Nat := 3

/-- config.MAX_ITERATIONS default. -/
def MAX_ITERATIONS : Nat := 3

/-- config.CONFIDENCE_FINAL_THRESHOLD default. -/
def CONFIDENCE_FINAL_THRESHOLD : ℚ := 85

/-- config.OCR_QUALITY_THRESHOLD default. -/
def OCR_QUALITY_THRESHOLD : ℚ := 35

/-- config.VISION_LOW_CONFIDENCE default. -/
def VISION_LOW_CONFIDENCE : ℚ := 80

/-- config.VISION_MAX_PAGES default. -/
def VISION_MAX_PAGES : Nat := 40

/-- page_info.PageInfo: per-page mutable classification state. -/
structure PageInfo where
  index : Nat
  text : String
  label : Option String := none
  confidence : ℚ := 0
  is_final : Bool := false
  ocr_quality : ℚ := 0
  needs_vision : Bool := false
  deriving DecidableEq, Inhabited

/-- One entry of an LLM prediction (a dict in page_classifier._apply_predictions);
missing fields are modelled as in prediction.get with its defaults. -/
structure Prediction where
  pageIndex : Option Int := none
  label : Option String := none
  confidencePercent : ℚ := 0
  isTextIncoherent : Bool := false
  deriving DecidableEq, Inhabited

/-- page_classifier._normalize_label_text: value.lower() then keep alphanumeric chars. -/
def normalizeLabelText (value : String) : String :=
  String.mk ((value.data.map Char.toLower).filter Char.isAlphanum)

/-- Whether the first list is an initial segment of the second (Python str startswith,
used to express the substring test below). -/
def leadMatch : List Char → List Char → Bool
  | [], _ => true
  | _ :: _, [] => false
  | a :: as, b :: bs => a == b && leadMatch as bs

/-- Whether the first list occurs as a contiguous segment of the second
(Python substring containment test). -/
def subMatch (needle : List Char) : List Char → Bool
  | [] => leadMatch needle []
  | b :: bs => leadMatch needle (b :: bs) || subMatch needle bs

/-- The loop over _NORMALIZED_ALLOWED_LABELS in page_classifier._canonicalize_label:
first allowed label whose nonempty normalized form is contained in the normalized input. -/
def findContainedLabel (normalized : String) : List String → Option String
  | [] => none
  | allowed :: rest =>
    let allowedNorm := normalizeLabelText allowed
    if allowedNorm != "" && subMatch allowedNorm.data normalized.data then some allowed
    else findContainedLabel normalized rest

/-- Python str.strip(): drop leading and trailing whitespace characters. -/
def pyStrip (s : String) : String :=
  String.mk (((s.data.dropWhile Char.isWhitespace).reverse.dropWhile Char.isWhitespace).reverse)

/-- page_classifier._canonicalize_label: falsy labels rejected; exact trimmed match
against the allowed set first, else normalized containment match. -/
def canonicalizeLabel (label : Option String) : Option String :=
  match label with
  | none => none
  | some raw =>
    if raw == "" then none
    else
      let trimmed := pyStrip raw
      if ALLOWED_LABELS.contains trimmed then some trimmed
      else
        let normalized := normalizeLabelText trimmed
        if normalized == "" then none
        else findContainedLabel normalized ALLOWED_LABELS

/-- Lines 236-248 of page_classifier._apply_predictions, acting on one page once the
prediction passed the index-range check and label canonicalization: flag incoherence,
skip when final with no strictly higher confidence, otherwise overwrite and
possibly finalize. -/
def stepPage (th : ℚ) (page : PageInfo) (canon : String) (conf : ℚ) (incoherent : Bool) :
    PageInfo :=
  let page1 := if incoherent then { page with needs_vision := true } else page
  if page1.is_final = true ∧ conf ≤ page1.confidence then page1
  else
    let page2 := { page1 with label := some canon, confidence := conf }
    if th ≤ conf then { page2 with is_final := true, needs_vision := false } else page2

/-- One loop turn of page_classifier._apply_predictions: resolve pageIndex, drop
out-of-range indices, canonicalize the label (dropping on failure), then stepPage. -/
def applyOnePrediction (th : ℚ) (pages : List PageInfo) (pred : Prediction) :
    List PageInfo :=
  match pred.pageIndex with
  | none => pages
  | some pi =>
    if 0 ≤ pi ∧ pi < (pages.length : Int) then
      match canonicalizeLabel pred.label with
      | none => pages
      | some canon =>
        let i := pi.toNat
        pages.set i
          (stepPage th (pages.getD i default) canon pred.confidencePercent
            pred.isTextIncoherent)
    else pages

/-- page_classifier._apply_predictions over a prediction list. -/
def applyPredictions (th : ℚ) (pages : List PageInfo) (preds : List Prediction) :
    List PageInfo :=
  preds.foldl (fun ps p => applyOnePrediction th ps p) pages

/-- A sequence of already-canonicalized predictions (label, confidence, incoherent)
folded into a single page. -/
def stepPageList (th : ℚ) (page : PageInfo) (preds : List (String × ℚ × Bool)) :
    PageInfo :=
  preds.foldl (fun pg t => stepPage th pg t.1 t.2.1 t.2.2) page

/-- Running maximum of the confidences of a canonicalized prediction list, from 0. -/
def maxConf (preds : List (String × ℚ × Bool)) : ℚ :=
  preds.foldl (fun a t => max a t.2.1) 0

/-- A freshly extracted page record with the given position (pdf_text_extractor). -/
def initPage (i : Nat) (txt : String) : PageInfo :=
  { index := i, text := txt }

lemma stepPage_eq (th : ℚ) (page : PageInfo) (c : String) (conf : ℚ) (inc : Bool) :
    stepPage th page c conf inc =
      if page.is_final = true ∧ conf ≤ page.confidence then
        (if inc then { page with needs_vision := true } else page)
      else if th ≤ conf then
        { page with label := some c, confidence := conf, is_final := true, needs_vision := false }
      else
        { page with
          label := some c
          confidence := conf
          needs_vision := (if inc then true else page.needs_vision) } := by
  unfold stepPage
  by_cases hinc : inc <;> simp [hinc]

lemma stepPageList_max_invariant (th : ℚ) (hth : 0 < th) :
    ∀ (preds : List (String × ℚ × Bool)) (s : PageInfo) (m : ℚ),
      (s.is_final = false → m < th) →
      (s.is_final = true → s.confidence = m ∧ th ≤ m) →
      ((stepPageList th s preds).is_final = false →
          preds.foldl (fun a t => max a t.2.1) m < th) ∧
      ((stepPageList th s preds).is_final = true →
          (stepPageList th s preds).confidence = preds.foldl (fun a t => max a t.2.1) m ∧
          th ≤ preds.foldl (fun a t => max a t.2.1) m)
  | [], s, m, h0, h1 => ⟨h0, h1⟩
  | (c, conf, inc) :: rest, s, m, h0, h1 => by
      have hstep : stepPageList th s ((c, conf, inc) :: rest) =
          stepPageList th (stepPage th s c conf inc) rest := rfl
      have hfold : ((c, conf, inc) :: rest).foldl (fun a t => max a t.2.1) m =
          rest.foldl (fun a t => max a t.2.1) (max m conf) := rfl
      rw [hstep, hfold]
      cases hfin : s.is_final
      · -- not yet final: every prediction overwrites
        have hm : m < th := h0 hfin
        by_cases hth2 : th ≤ conf
        · have hs : stepPage th s c conf inc =
              { s with label := some c, confidence := conf, is_final := true, needs_vision := false } := by
            rw [stepPage_eq]; simp [hfin, hth2]
          refine stepPageList_max_invariant th hth rest _ (max m conf) ?_ ?_
          · intro hcontr; rw [hs] at hcontr; simp at hcontr
          · intro _
            rw [hs]
            have hmc : max m conf = conf := max_eq_right (hm.le.trans hth2)
            exact ⟨by simp [hmc], le_max_of_le_right hth2⟩
        · have hs : stepPage th s c conf inc =
              { s with
                label := some c
                confidence := conf
                needs_vision := (if inc then true else s.needs_vision) } := by
            rw [stepPage_eq]; simp [hfin, hth2]
          refine stepPageList_max_invariant th hth rest _ (max m conf) ?_ ?_
          · intro _
            exact max_lt hm (lt_of_not_le hth2)
          · intro hcontr; rw [hs] at hcontr; simp [hfin] at hcontr
      · -- already final: only strictly higher confidence overwrites
        obtain ⟨hcm, hthm⟩ := h1 hfin
        by_cases hle : conf ≤ s.confidence
        · have hs : stepPage th s c conf inc =
              (if inc then { s with needs_vision := true } else s) := by
            rw [stepPage_eq]; simp [hfin, hle]
          have hmax : max m conf = m := max_eq_left (hcm ▸ hle)
          refine stepPageList_max_invariant th hth rest _ (max m conf) ?_ ?_
          · intro hcontr; rw [hs] at hcontr
            by_cases hinc : inc <;> simp [hinc, hfin] at hcontr
          · intro _
            rw [hs, hmax]
            by_cases hinc : inc <;> simp [hinc, hcm, hthm, hfin]
        · have hgt : s.confidence < conf := lt_of_not_le hle
          have hthc : th ≤ s.confidence := by rw [hcm]; exact hthm
          have hth2 : th ≤ conf := le_of_lt (lt_of_le_of_lt hthc hgt)
          have hs : stepPage th s c conf inc =
              { s with label := some c, confidence := conf, is_final := true, needs_vision := false } := by
            rw [stepPage_eq]; simp [hfin, hle, hth2]
          have hmax : max m conf = conf := max_eq_right (le_of_lt (hcm ▸ hgt))
          refine stepPageList_max_invariant th hth rest _ (max m conf) ?_ ?_
          · intro hcontr; rw [hs] at hcontr; simp at hcontr
          · intro _
            rw [hs, hmax]
            exact ⟨rfl, hth2⟩

/-- The property bundle of claim C1, stated over the fold-in step for one page
(stepPage, predictions already index-checked and label-canonicalized). -/
def C1Statement (th : ℚ) (page : PageInfo) (c : String) (conf : ℚ) (inc : Bool)
    (preds : List (String × ℚ × Bool)) : Prop :=
  (page.is_final = true → (stepPage th page c conf inc).is_final = true) ∧
  (page.is_final = true → conf ≤ page.confidence →
      (stepPage th page c conf inc).label = page.label ∧
      (stepPage th page c conf inc).confidence = page.confidence) ∧
  (page.confidence < conf →
      (stepPage th page c conf inc).label = some c ∧
      (stepPage th page c conf inc).confidence = conf) ∧
  (page.is_final = true → page.confidence ≤ (stepPage th page c conf inc).confidence) ∧
  ((stepPageList th (initPage 0 "") preds).is_final = true →
      (stepPageList th (initPage 0 "") preds).confidence = maxConf preds)

/-- C1: finality is never revoked by a prediction; a final page's label and
confidence survive any prediction whose confidence does not strictly exceed the
stored one; a recognized prediction with strictly higher confidence overwrites
label and confidence; once final the stored confidence is non-decreasing; and a
page that ends up final after any prediction sequence (from a fresh record)
stores exactly the maximum confidence ever applied to it. -/
theorem C1_final_confidence_floor (th : ℚ) (page : PageInfo) (c : String) (conf : ℚ)
    (inc : Bool) (preds : List (String × ℚ × Bool)) (hth : 0 < th) :
    C1Statement th page c conf inc preds := by
  unfold C1Statement
  refine ⟨?_, ?_, ?_, ?_, ?_⟩
  · intro hfin
    rw [stepPage_eq]
    by_cases hle : conf ≤ page.confidence <;> by_cases hth2 : th ≤ conf <;>
      by_cases hinc : inc <;> simp [hfin, hle, hth2, hinc]
  · intro hfin hle
    rw [stepPage_eq]
    by_cases hinc : inc <;> simp [hfin, hle, hinc]
  · intro hgt
    rw [stepPage_eq]
    have hle : ¬(page.is_final = true ∧ conf ≤ page.confidence) := by
      rintro ⟨-, h⟩; exact absurd hgt (not_lt.mpr h)
    by_cases hth2 : th ≤ conf <;> simp [hle, hth2]
  · intro hfin
    rw [stepPage_eq]
    by_cases hle : conf ≤ page.confidence
    · by_cases hinc : inc <;> simp [hfin, hle, hinc]
    · have hgt : page.confidence < conf := lt_of_not_le hle
      by_cases hth2 : th ≤ conf <;> simp [hfin, hle, hth2, le_of_lt hgt]
  · intro hfin
    have h := (stepPageList_max_invariant th hth preds (initPage 0 "") 0
      (fun _ => hth) (by simp [initPage])).2 hfin
    exact h.1

/-- Scenario witness for C1: page 3 is final with confidence 90; a later
prediction with confidence 80 leaves its label and confidence unchanged. -/
def c1page : PageInfo :=
  { index := 3, text := "p3", label := some "Minutes & Resolutions", confidence := 90, is_final := true }

theorem C1_final_confidence_floor_witness :
    0 < (85 : ℚ) ∧
      C1Statement 85 c1page "Minutes & Resolutions" 80 false [("By Laws", 95, false)] :=
  ⟨by norm_num,
   C1_final_confidence_floor 85 c1page "Minutes & Resolutions" 80 false
     [("By Laws", 95, false)] (by norm_num)⟩

/-- The property bundle of claim C10: a non-final page is always overwritten by a
recognized prediction, and a concrete pre-finalization sequence where the stored
confidence drops below the maximum observed so far. -/
def C10Statement (th : ℚ) (page : PageInfo) (c : String) (conf : ℚ) (inc : Bool) : Prop :=
  ((stepPage th page c conf inc).label = some c ∧
      (stepPage th page c conf inc).confidence = conf) ∧
  (stepPageList 85 (initPage 0 "")
      [("By Laws", 50, false), ("By Laws", 30, false)]).confidence = 30 ∧
  (30 : ℚ) < 50

/-- C10: while a page is not final, an applied recognized prediction always
overwrites label and confidence, even when strictly lower; before finalization the
stored confidence is not monotone and does not track the running maximum
(witnessed by the 50-then-30 sequence ending at confidence 30). -/
theorem C10_nonfinal_overwrite (th : ℚ) (page : PageInfo) (c : String) (conf : ℚ)
    (inc : Bool) (h : page.is_final = false) : C10Statement th page c conf inc := by
  refine ⟨?_, by decide, by norm_num⟩
  rw [stepPage_eq]
  by_cases hth2 : th ≤ conf <;> simp [h, hth2]

theorem C10_nonfinal_overwrite_witness :
    (initPage 0 "x").is_final = false ∧ C10Statement 85 (initPage 0 "x") "By Laws" 30 false :=
  ⟨by decide, C10_nonfinal_overwrite 85 (initPage 0 "x") "By Laws" 30 false (by decide)⟩

/-- C6: a prediction whose label fails canonicalization is dropped and the page
list is entirely untouched (labels, confidences, finality and needs_vision),
including when the prediction carries isTextIncoherent = true. -/
theorem C6_unrecognized_label_dropped (th : ℚ) (pages : List PageInfo)
    (pred : Prediction) (h : canonicalizeLabel pred.label = none) :
    applyOnePrediction th pages pred = pages := by
  cases hpi : pred.pageIndex <;> simp [applyOnePrediction, hpi, h]

/-- Witness for C6: a gibberish label with isTextIncoherent = true is dropped and
the page record keeps all of its previous values. -/
def c6pages : List PageInfo := [initPage 0 "hello"]

def c6pred : Prediction :=
  { pageIndex := some 0, label := some "Zqx Ww!!", confidencePercent := 99,
    isTextIncoherent := true }

theorem C6_unrecognized_label_dropped_witness :
    canonicalizeLabel c6pred.label = none ∧ applyOnePrediction 85 c6pages c6pred = c6pages :=
  ⟨by decide, C6_unrecognized_label_dropped 85 c6pages c6pred (by decide)⟩

/-- Concrete pages for the C3 scenario: 8 pages, page 7 not final. -/
def c3pages : List PageInfo := (List.range 8).map (fun i => initPage i "txt")

def c3pred : Prediction :=
  { pageIndex := some 7, label := some "By Laws", confidencePercent := 95,
    isTextIncoherent := true }

/-- Counterexample to C3 as stated: page 7 predicted with isTextIncoherent = true and
confidence 95 (at or above the final threshold 85) does become final with the given
label, but its needs_vision flag ends up false, not true: finalization clears the
incoherence flag set moments earlier by the same prediction. -/
theorem C3_counterexample :
    ((applyPredictions 85 c3pages [c3pred]).getD 7 default).is_final = true ∧
    ((applyPredictions 85 c3pages [c3pred]).getD 7 default).label = some "By Laws" ∧
    ((applyPredictions 85 c3pages [c3pred]).getD 7 default).needs_vision = false := by
  decide

/-- The amended C3 property: an incoherent prediction at or above the final
threshold finalizes the page with the predicted label and clears needs_vision. -/
def C3Statement (th : ℚ) (page : PageInfo) (canon : String) (conf : ℚ) : Prop :=
  (stepPage th page canon conf true).is_final = true ∧
  (stepPage th page canon conf true).label = some canon ∧
  (stepPage th page canon conf true).confidence = conf ∧
  (stepPage th page canon conf true).needs_vision = false

/-- C3 (amended): if a non-final page receives a prediction with
isTextIncoherent = true, a recognized label and confidence at or above the final
threshold, the page becomes final with that label and confidence, and needs_vision
is cleared by the finalization, so the page is no longer an escalation candidate. -/
theorem C3_amended_incoherent_finalize (th : ℚ) (page : PageInfo) (canon : String)
    (conf : ℚ) (h1 : page.is_final = false) (h2 : th ≤ conf) :
    C3Statement th page canon conf := by
  unfold C3Statement
  rw [stepPage_eq]
  simp [h1, h2]

theorem C3_amended_incoherent_finalize_witness :
    (initPage 7 "garbled").is_final = false ∧ (85 : ℚ) ≤ 95 ∧
      C3Statement 85 (initPage 7 "garbled") "By Laws" 95 :=
  ⟨by decide, by norm_num,
   C3_amended_incoherent_finalize 85 (initPage 7 "garbled") "By Laws" 95 (by decide)
     (by norm_num)⟩

/-- Truthiness of an optional label (Python: a label is falsy when None or empty). -/
def blankLabel : Option String → Bool
  | none => true
  | some s => s == ""

/-- page_info.PageInfo.to_block_entry: the page view sent in a block payload. -/
structure BlockEntry where
  pageIndex : Nat
  isTarget : Bool
  isFinal : Bool
  text : String
  finalLabel : Option String
  deriving DecidableEq, Inhabited

def toBlockEntry (p : PageInfo) (isTgt : Bool) : BlockEntry :=
  { pageIndex := p.index
    isTarget := isTgt
    isFinal := p.is_final
    text := p.text
    finalLabel := if p.is_final && !(blankLabel p.label) then p.label else none }

/-- A block payload dict as built by block_builder (targetInterval plus page views);
the engine tag is attached by the orchestrator. -/
structure Block where
  targetStart : Nat
  targetEnd : Nat
  pagesPayload : List BlockEntry
  engine : String := "ask"
  deriving DecidableEq, Inhabited

/-- block_builder.BlockBuilder._build_block_payload: clamp the target range to the
document, expand by the context window, mark non-final in-range pages as targets,
and suppress the block (returning none for the empty dict) when it has no target. -/
def buildBlockPayload (ctx : Nat) (pages : List PageInfo) (ts te : Int) : Option Block :=
  let tStart : Int := max 0 ts
  let tEnd : Int := min ((pages.length : Int) - 1) te
  if tStart > tEnd then none
  else
    let cs : Nat := (max 0 (tStart - (ctx : Int))).toNat
    let ce : Nat := (min ((pages.length : Int)) (tEnd + (ctx : Int) + 1)).toNat
    let payload := (List.range' cs (ce - cs)).map (fun idx =>
      let page := pages.getD idx default
      toBlockEntry page
        (decide (tStart ≤ (idx : Int) ∧ (idx : Int) ≤ tEnd) && !page.is_final))
    if payload.any (fun e => e.isTarget) then
      some { targetStart := tStart.toNat, targetEnd := tEnd.toNat, pagesPayload := payload }
    else none

/-- Inner while loop of block_builder.BlockBuilder._build_blocks_from_ranges over one
contiguous range: slice chunkStart..e into chunks of block_size pages (the
constructor clamps block_size to at least 1, mirrored here by max 1 bs). -/
def chunkRange (bs ctx : Nat) (pages : List PageInfo) (chunkStart e : Nat) : List Block :=
  if chunkStart ≤ e then
    let chunkEnd := min (chunkStart + max 1 bs - 1) e
    let rest := chunkRange bs ctx pages (chunkEnd + 1) e
    match buildBlockPayload ctx pages (chunkStart : Int) (chunkEnd : Int) with
    | some b => b :: rest
    | none => rest
  else []
termination_by e + 1 - chunkStart
decreasing_by
  simp_wf
  omega

/-- block_builder.BlockBuilder._build_blocks_from_ranges. -/
def buildBlocksFromRanges (bs ctx : Nat) (pages : List PageInfo)
    (ranges : List (Nat × Nat)) : List Block :=
  (ranges.map (fun r => chunkRange bs ctx pages r.1 r.2)).flatten

/-- Insertion step of the sort in _contiguous_ranges (Python sorted). -/
def insertAsc (x : Nat) : List Nat → List Nat
  | [] => [x]
  | y :: ys => if x ≤ y then x :: y :: ys else y :: insertAsc x ys

def sortAsc (l : List Nat) : List Nat := l.foldr insertAsc []

/-- Grouping loop of block_builder.BlockBuilder._contiguous_ranges after sorting. -/
def contiguousRangesAux (start prev : Nat) : List Nat → List (Nat × Nat)
  | [] => [(start, prev)]
  | idx :: rest =>
    if idx = prev + 1 then contiguousRangesAux start idx rest
    else (start, prev) :: contiguousRangesAux idx idx rest

/-- block_builder.BlockBuilder._contiguous_ranges. -/
def contiguousRanges (indices : List Nat) : List (Nat × Nat) :=
  match sortAsc indices with
  | [] => []
  | x :: rest => contiguousRangesAux x x rest

/-- block_builder.BlockBuilder.build_initial_blocks. -/
def buildInitialBlocks (bs ctx : Nat) (pages : List PageInfo) : List Block :=
  buildBlocksFromRanges bs ctx pages
    (contiguousRanges ((pages.filter (fun p => !p.is_final)).map (fun p => p.index)))

/-- Scanning loop of block_builder.BlockBuilder.build_label_blocks_excluding,
carrying the currently open run (start position, run label): a final or excluded
page closes the run; a label change closes it and opens a new one at the current
position, exactly as the nested while loops advance i. -/
def labelRunsGo (excl : List Nat) : Option (Nat × Option String) → Nat → List PageInfo →
    List (Nat × Nat)
  | none, _, [] => []
  | some st, i, [] => [(st.1, i - 1)]
  | none, i, p :: ps =>
    if p.is_final || excl.contains p.index then labelRunsGo excl none (i + 1) ps
    else labelRunsGo excl (some (i, p.label)) (i + 1) ps
  | some st, i, p :: ps =>
    if p.is_final || excl.contains p.index then
      (st.1, i - 1) :: labelRunsGo excl none (i + 1) ps
    else if p.label == st.2 then labelRunsGo excl (some st) (i + 1) ps
    else (st.1, i - 1) :: labelRunsGo excl (some (i, p.label)) (i + 1) ps

/-- block_builder.BlockBuilder.build_label_blocks_excluding. -/
def buildLabelBlocksExcluding (bs ctx : Nat) (pages : List PageInfo) (excl : List Nat) :
    List Block :=
  buildBlocksFromRanges bs ctx pages (labelRunsGo excl none 0 pages)

/-- block_builder.BlockBuilder.build_single_page_block. -/
def buildSinglePageBlock (ctx : Nat) (pages : List PageInfo) (pageIdx : Nat) :
    Option Block :=
  buildBlockPayload ctx pages (pageIdx : Int) (pageIdx : Int)

lemma getD_set_self {α : Type _} : ∀ (l : List α) (i : Nat) (a d : α), i < l.length →
    (l.set i a).getD i d = a
  | [], i, _, _, h => absurd h (by simp)
  | _ :: _, 0, _, _, _ => rfl
  | _ :: xs, i + 1, a, d, h =>
    getD_set_self xs i a d (by simpa using h)

lemma getD_set_ne {α : Type _} : ∀ (l : List α) (i j : Nat) (a d : α), i ≠ j →
    (l.set i a).getD j d = l.getD j d
  | [], _, _, _, _, _ => rfl
  | _ :: _, 0, 0, _, _, h => absurd rfl h
  | _ :: _, 0, _ + 1, _, _, _ => rfl
  | _ :: _, _ + 1, 0, _, _, _ => rfl
  | _ :: xs, i + 1, j + 1, a, d, h =>
    getD_set_ne xs i j a d (fun hij => h (by rw [hij]))

/-- Concrete pages for the C2 counterexample: page 0 will be a context page of the
block targeting page 1 alone. -/
def c2pages : List PageInfo := [initPage 0 "context page", initPage 1 "target page"]

def c2pred : Prediction :=
  { pageIndex := some 0, label := some "By Laws", confidencePercent := 50 }

/-- Counterexample to C2 as stated: the block targeting page 1 carries page 0 as a
context page (isTarget = false), yet folding in a returned prediction for page 0
with a recognized label updates page 0's record (its label changes from none to
the predicted label): the fold-in never checks target membership. -/
theorem C2_counterexample :
    (buildBlockPayload 3 c2pages 1 1).map
        (fun b => b.pagesPayload.map (fun e => (e.pageIndex, e.isTarget))) =
      some [(0, false), (1, true)] ∧
    (c2pages.getD 0 default).label = none ∧
    ((applyPredictions 85 c2pages [c2pred]).getD 0 default).label = some "By Laws" := by
  decide

/-- The amended C2 property: the fold-in applies an in-range prediction by page
index alone, whether or not that page was a target of the block it came from. -/
def C2Statement (th : ℚ) (pages : List PageInfo) (pred : Prediction) (i : Nat)
    (canon : String) : Prop :=
  ((applyOnePrediction th pages pred).getD i default).label = some canon ∧
  ((applyOnePrediction th pages pred).getD i default).confidence = pred.confidencePercent

/-- C2 (amended): the fold-in step does not consult the block's target range; a
returned prediction whose pageIndex is any in-document page — context pages
included — with a label that canonicalizes, is applied to that page (here stated
for a non-final page, whose label and confidence are overwritten; only
out-of-range indices and unrecognized labels are dropped). -/
theorem C2_amended_context_pages_applied (th : ℚ) (pages : List PageInfo)
    (pred : Prediction) (i : Nat) (canon : String)
    (hpi : pred.pageIndex = some (i : Int)) (hlen : i < pages.length)
    (hcanon : canonicalizeLabel pred.label = some canon)
    (hnf : (pages.getD i default).is_final = false) :
    C2Statement th pages pred i canon := by
  have hrange : (0 : Int) ≤ (i : Int) ∧ (i : Int) < (pages.length : Int) :=
    ⟨Int.ofNat_nonneg i, by exact_mod_cast hlen⟩
  have happ : applyOnePrediction th pages pred =
      pages.set i (stepPage th (pages.getD i default) canon pred.confidencePercent
        pred.isTextIncoherent) := by
    unfold applyOnePrediction
    rw [hpi]
    simp [hrange, hcanon]
  unfold C2Statement
  rw [happ, getD_set_self _ _ _ _ (by simpa using hlen), stepPage_eq]
  rw [if_neg (fun hc => Bool.noConfusion (hnf ▸ hc.1))]
  by_cases hth2 : th ≤ pred.confidencePercent
  · rw [if_pos hth2]; exact ⟨rfl, rfl⟩
  · rw [if_neg hth2]; exact ⟨rfl, rfl⟩

theorem C2_amended_context_pages_applied_witness :
    c2pred.pageIndex = some ((0 : Nat) : Int) ∧ 0 < c2pages.length ∧
      canonicalizeLabel c2pred.label = some "By Laws" ∧
      (c2pages.getD 0 default).is_final = false ∧
      C2Statement 85 c2pages c2pred 0 "By Laws" :=
  ⟨by decide, by decide, by decide, by decide,
   C2_amended_context_pages_applied 85 c2pages c2pred 0 "By Laws" (by decide) (by decide)
     (by decide) (by decide)⟩

/-- Concrete page for the C7 counterexample: needs_vision set, not final. -/
def c7pages : List PageInfo :=
  [{ index := 0, text := "t", ocr_quality := 50, needs_vision := true }]

def c7pred : Prediction :=
  { pageIndex := some 0, label := some "By Laws", confidencePercent := 95 }

/-- Counterexample to C7 as stated: a page with needs_vision = true receives an
ordinary text-engine prediction at confidence 95; the fold-in finalizes the page
and clears needs_vision without any vision-based prediction being applied, so the
flag is not cleared exactly when a vision prediction is successfully applied. -/
theorem C7_counterexample :
    (c7pages.getD 0 default).needs_vision = true ∧
    ((applyPredictions 85 c7pages [c7pred]).getD 0 default).needs_vision = false := by
  decide

/-- The escalation reason test of run_classification (pass >= 1): needs_vision set,
ocr_quality below the quality threshold, or confidence below the low-confidence
threshold (any nonempty reason list puts the page into reasons_map). -/
def hasEscalationReason (p : PageInfo) : Bool :=
  p.needs_vision || decide (p.ocr_quality < OCR_QUALITY_THRESHOLD) ||
    decide (p.confidence < VISION_LOW_CONFIDENCE)

/-- Keys of reasons_map in page order (Python dicts preserve insertion order):
non-final pages with at least one escalation reason. -/
def visionCandidateIdxs (pages : List PageInfo) : List Nat :=
  (pages.filter (fun p => !p.is_final && hasEscalationReason p)).map (fun p => p.index)

/-- vision_indices = list(reasons_map.keys())[: max(0, VISION_MAX_PAGES)]. -/
def visionIdxs (pages : List PageInfo) : List Nat :=
  (visionCandidateIdxs pages).take VISION_MAX_PAGES

/-- The single-page vision blocks of a later pass, engine tagged vision. -/
def visionBlocks (ctx : Nat) (pages : List PageInfo) : List Block :=
  (visionIdxs pages).filterMap (fun idx =>
    (buildSinglePageBlock ctx pages idx).map (fun b => { b with engine := "vision" }))

/-- The text-engine blocks of a later pass, engine tagged ask. -/
def askBlocks (bs ctx : Nat) (pages : List PageInfo) : List Block :=
  (buildLabelBlocksExcluding bs ctx pages (visionIdxs pages)).map
    (fun b => { b with engine := "ask" })

/-- The block plan of one pass of run_classification: fixed-size chunks on pass 0,
ask blocks followed by vision blocks on later passes. -/
def passBlocks (bs ctx : Nat) (pages : List PageInfo) (iter : Nat) : List Block :=
  match iter with
  | 0 => (buildInitialBlocks bs ctx pages).map (fun b => { b with engine := "ask" })
  | _ + 1 => askBlocks bs ctx pages ++ visionBlocks ctx pages

/-- Arbitrary behavior of the external classification collaborators over one run.
ask gives the prediction list a text-engine call yields after its one retry (the
empty list covers transport or parse failure on both attempts as well as an empty
pagePredictions array); vision gives the parsed single-page result for a page
index, none covering any rendering or client failure, or a missing vision client
or pdf path. -/
structure Oracle where
  ask : Nat → Block → List Prediction
  vision : Nat → Nat → Option (String × ℚ)

/-- One block's contribution to the fold-in of _execute_blocks (results are applied
in submission order, so a pass is a left fold of this step over its blocks): a
successful vision call clears needs_vision on its target page and applies its
single prediction; an ask result applies its predictions; a failed or empty result
leaves the state untouched. -/
def execBlock (th : ℚ) (orc : Oracle) (iter : Nat) (pages : List PageInfo) (b : Block) :
    List PageInfo :=
  if b.engine == "vision" then
    match orc.vision iter b.targetStart with
    | none => pages
    | some lc =>
      let pages1 :=
        if b.targetStart < pages.length then
          pages.set b.targetStart
            { (pages.getD b.targetStart default) with needs_vision := false }
        else pages
      let pred : Prediction :=
        { pageIndex := some (b.targetStart : Int)
          label := some lc.1
          confidencePercent := lc.2 }
      applyPredictions th pages1 [pred]
  else
    let preds := orc.ask iter b
    if preds.isEmpty then pages else applyPredictions th pages preds

/-- The fold-in of one pass over all its blocks in submission order. -/
def execBlocks (th : ℚ) (orc : Oracle) (iter : Nat) (pages : List PageInfo)
    (blocks : List Block) : List PageInfo :=
  blocks.foldl (fun ps b => execBlock th orc iter ps b) pages

/-- The iteration loop of run_classification; fuel is the number of passes still
allowed (max_iterations - iteration). Returns the final page state and the number
of passes executed. -/
def runLoop (th : ℚ) (bs ctx : Nat) (orc : Oracle) :
    Nat → Nat → List PageInfo → List PageInfo × Nat
  | 0, iter, pages => (pages, iter)
  | fuel + 1, iter, pages =>
    if pages.all (fun p => p.is_final) then (pages, iter)
    else
      let blocks := passBlocks bs ctx pages iter
      if blocks.isEmpty then (pages, iter)
      else runLoop th bs ctx orc fuel (iter + 1) (execBlocks th orc iter pages blocks)

/-- PageClassifier.run_classification, with the constructor clamp
max_iterations = max(1, max_iterations). -/
def runClassification (th : ℚ) (bs ctx maxIter : Nat) (orc : Oracle)
    (pages : List PageInfo) : List PageInfo × Nat :=
  runLoop th bs ctx orc (max 1 maxIter) 0 pages

/-- An output section dict (1-based inclusive page range). -/
structure Section where
  name : String
  startPage : Int
  endPage : Int
  deriving DecidableEq, Inhabited

/-- section_aggregator.SectionAggregator._section_dict. -/
def sectionDict (label : String) (startIndex endIndex : Int) : Section :=
  { name := label, startPage := startIndex + 1, endPage := endIndex + 1 }

/-- The scanning loop of SectionAggregator.aggregate; the state is the section list
built so far plus the open run (current_label, start_index), which are both None or
both set in the Python loop. -/
def aggregateGo : List Section → Option (String × Int) → List PageInfo →
    List Section × Option (String × Int)
  | secs, cur, [] => (secs, cur)
  | secs, none, p :: ps =>
    if blankLabel p.label then aggregateGo secs none ps
    else aggregateGo secs (some (p.label.getD "", (p.index : Int))) ps
  | secs, some st, p :: ps =>
    if blankLabel p.label then
      aggregateGo (secs ++ [sectionDict st.1 st.2 ((p.index : Int) - 1)]) none ps
    else if p.label == some st.1 then aggregateGo secs (some st) ps
    else
      aggregateGo (secs ++ [sectionDict st.1 st.2 ((p.index : Int) - 1)])
        (some (p.label.getD "", (p.index : Int))) ps

/-- section_aggregator.SectionAggregator.aggregate: run the scan, then close any
open run with the last page's index. -/
def aggregate (pages : List PageInfo) : List Section :=
  match aggregateGo [] none pages with
  | (secs, none) => secs
  | (secs, some st) =>
    secs ++ [sectionDict st.1 st.2 (((pages.getLastD default).index : Int))]

/-- Positional well-formedness of the page list, as guaranteed by
PDFTextExtractor.extract: the page at position i carries index i. -/
def IndexWf (pages : List PageInfo) : Prop :=
  pages.map (fun p => p.index) = List.range pages.length

/-- MinuteBookSplitter.run after extraction: classify, then aggregate sections. -/
def splitterRun (th : ℚ) (bs ctx maxIter : Nat) (orc : Oracle) (pages : List PageInfo) :
    List Section :=
  aggregate (runClassification th bs ctx maxIter orc pages).1

lemma getD_eq_getElem {α : Type _} (l : List α) (d : α) {n : Nat} (h : n < l.length) :
    l.getD n d = l[n] := by
  simp [List.getD, List.getElem?_eq_getElem h]

lemma indexWf_index_eq {pages : List PageInfo} (hwf : IndexWf pages) {n : Nat}
    (h : n < pages.length) : (pages.getD n default).index = n := by
  have h2 : (pages[n]?).map (fun p => p.index) = some n := by
    rw [← List.getElem?_map, hwf, List.getElem?_range h]
  rw [List.getElem?_eq_getElem h] at h2
  rw [getD_eq_getElem _ _ h]
  simpa using h2

lemma stepPage_nv_false (th : ℚ) (page : PageInfo) (c : String) (conf : ℚ)
    (h : page.needs_vision = false) :
    (stepPage th page c conf false).needs_vision = false := by
  rw [stepPage_eq]
  by_cases h1 : page.is_final = true ∧ conf ≤ page.confidence
  · simp [h1, h]
  · by_cases h2 : th ≤ conf <;> simp [h1, h2, h]

/-- The property bundle of the amended claim C7, on the vision path of the block
fold-in and on the finalization clause of the prediction fold-in. -/
def C7Statement (th : ℚ) (orc : Oracle) (iter : Nat) (pages : List PageInfo) (b : Block)
    (page : PageInfo) (canon : String) (conf : ℚ) (inc : Bool) : Prop :=
  (orc.vision iter b.targetStart = none → execBlock th orc iter pages b = pages) ∧
  (∀ lbl cf, orc.vision iter b.targetStart = some (lbl, cf) →
      b.targetStart < pages.length →
      ((execBlock th orc iter pages b).getD b.targetStart default).needs_vision = false) ∧
  (th ≤ conf → ¬(page.is_final = true ∧ conf ≤ page.confidence) →
      (stepPage th page canon conf inc).needs_vision = false)

/-- C7 (amended): a failed vision call leaves the page state (needs_vision
included) untouched; a successful vision call clears needs_vision on its target
page even when the returned label fails canonicalization and the prediction is
dropped; and any applied prediction whose confidence meets the final threshold
also clears needs_vision — so the clearing is not tied exactly to a successfully
applied vision prediction. -/
theorem C7_amended_needs_vision_clearing (th : ℚ) (orc : Oracle) (iter : Nat)
    (pages : List PageInfo) (b : Block) (page : PageInfo) (canon : String) (conf : ℚ)
    (inc : Bool) (hb : b.engine = "vision") :
    C7Statement th orc iter pages b page canon conf inc := by
  refine ⟨?_, ?_, ?_⟩
  · intro hv
    unfold execBlock
    rw [hb, hv]
    simp
  · intro lbl cf hv hlen
    have hcl : ({ (pages.getD b.targetStart default) with needs_vision := false } :
        PageInfo).needs_vision = false := rfl
    have hexec : execBlock th orc iter pages b =
        applyOnePrediction th
          (pages.set b.targetStart
            { (pages.getD b.targetStart default) with needs_vision := false })
          { pageIndex := some (b.targetStart : Int), label := some lbl, confidencePercent := cf } := by
      unfold execBlock
      rw [hb, hv]
      simp [hlen, applyPredictions]
    rw [hexec]
    set pages1 := pages.set b.targetStart
      { (pages.getD b.targetStart default) with needs_vision := false } with hpages1
    have hlen1 : b.targetStart < pages1.length := by
      rw [hpages1, List.length_set]; exact hlen
    have hgot : pages1.getD b.targetStart default =
        { (pages.getD b.targetStart default) with needs_vision := false } :=
      getD_set_self _ _ _ _ hlen
    cases hc : canonicalizeLabel (some lbl) with
    | none =>
      have : applyOnePrediction th pages1
          { pageIndex := some (b.targetStart : Int), label := some lbl,
            confidencePercent := cf } = pages1 :=
        C6_unrecognized_label_dropped th pages1 _ hc
      rw [this, hgot]
    | some canon2 =>
      have hrange : (0 : Int) ≤ (b.targetStart : Int) ∧
          (b.targetStart : Int) < (pages1.length : Int) :=
        ⟨Int.ofNat_nonneg _, by exact_mod_cast hlen1⟩
      have happ : applyOnePrediction th pages1
          { pageIndex := some (b.targetStart : Int), label := some lbl,
            confidencePercent := cf } =
          pages1.set b.targetStart
            (stepPage th (pages1.getD b.targetStart default) canon2 cf false) := by
        unfold applyOnePrediction
        simp [hrange, hc]
      rw [happ, getD_set_self _ _ _ _ hlen1, hgot]
      exact stepPage_nv_false th _ canon2 cf hcl
  · intro hth hskip
    rw [stepPage_eq, if_neg ?_]
    · by_cases hinc : inc <;> simp [hth, hinc]
    · intro hcond
      exact hskip ⟨hcond.1, hcond.2⟩

def c7orc : Oracle :=
  { ask := fun _ _ => [], vision := fun _ _ => some ("unrecognized gibberish", 70) }

def c7block : Block :=
  { targetStart := 0, targetEnd := 0, pagesPayload := [toBlockEntry (initPage 0 "t") true], engine := "vision" }

theorem C7_amended_needs_vision_clearing_witness :
    c7block.engine = "vision" ∧
      C7Statement 85 c7orc 1 c7pages c7block (initPage 0 "t") "By Laws" 95 false :=
  ⟨rfl, C7_amended_needs_vision_clearing 85 c7orc 1 c7pages c7block (initPage 0 "t")
    "By Laws" 95 false rfl⟩

/-- The property bundle of claim C8: the per-pass vision block count is capped by
VISION_MAX_PAGES, every escalated index is a candidate, every candidate is a
non-final page with at least one escalation reason, and the capped selection is
earliest-index-first (every selected index is smaller than every unselected
candidate). -/
def C8Statement (bs ctx : Nat) (pages : List PageInfo) : Prop :=
  (visionBlocks ctx pages).length ≤ VISION_MAX_PAGES ∧
  (∀ iter, ((passBlocks bs ctx pages (iter + 1)).filter
      (fun b => b.engine == "vision")).length ≤ VISION_MAX_PAGES) ∧
  (∀ x ∈ visionIdxs pages, x ∈ visionCandidateIdxs pages) ∧
  (∀ x ∈ visionCandidateIdxs pages, ∃ p ∈ pages, p.index = x ∧ p.is_final = false ∧
      hasEscalationReason p = true) ∧
  (∀ x ∈ visionIdxs pages, ∀ y ∈ visionCandidateIdxs pages, y ∉ visionIdxs pages → x < y)

/-- C8: in every pass after the first, the number of single-page image-engine
blocks is at most VISION_MAX_PAGES, and the escalated pages are the
earliest-index-first selection among the non-final pages with at least one
escalation reason (needs_vision, low ocr_quality, or low confidence). -/
theorem C8_escalation_cap (bs ctx : Nat) (pages : List PageInfo) (hwf : IndexWf pages) :
    C8Statement bs ctx pages := by
  have hlen1 : (visionBlocks ctx pages).length ≤ VISION_MAX_PAGES :=
    le_trans (List.length_filterMap_le _ _) (List.length_take_le _ _)
  refine ⟨hlen1, ?_, ?_, ?_, ?_⟩
  · intro iter
    have hsplit : (passBlocks bs ctx pages (iter + 1)).filter
        (fun b => b.engine == "vision") =
        (askBlocks bs ctx pages).filter (fun b => b.engine == "vision") ++
          (visionBlocks ctx pages).filter (fun b => b.engine == "vision") := by
      simp [passBlocks]
    have hask : (askBlocks bs ctx pages).filter (fun b => b.engine == "vision") = [] := by
      rw [List.filter_eq_nil_iff]
      intro b hb
      obtain ⟨a, -, rfl⟩ := List.mem_map.mp hb
      simp
    rw [hsplit, hask, List.nil_append]
    exact le_trans (List.length_filter_le _ _) hlen1
  · intro x hx
    exact List.mem_of_mem_take hx
  · intro x hx
    obtain ⟨p, hp, rfl⟩ := List.mem_map.mp hx
    obtain ⟨hpmem, hpf⟩ := List.mem_filter.mp hp
    obtain ⟨h1, h2⟩ := Bool.and_eq_true_iff.mp hpf
    exact ⟨p, hpmem, rfl, by simpa using h1, h2⟩
  · have hpair : (visionCandidateIdxs pages).Pairwise (· < ·) := by
      have hsub : (visionCandidateIdxs pages).Sublist (pages.map (fun p => p.index)) :=
        (List.filter_sublist pages).map _
      rw [hwf] at hsub
      exact (List.pairwise_lt_range _).sublist hsub
    intro x hx y hy hyn
    have hyd : y ∈ (visionCandidateIdxs pages).drop VISION_MAX_PAGES := by
      have hy2 : y ∈ (visionCandidateIdxs pages).take VISION_MAX_PAGES ++
          (visionCandidateIdxs pages).drop VISION_MAX_PAGES := by
        rw [List.take_append_drop]; exact hy
      rcases List.mem_append.mp hy2 with h | h
      · exact absurd h hyn
      · exact h
    have hpair2 : ((visionCandidateIdxs pages).take VISION_MAX_PAGES ++
        (visionCandidateIdxs pages).drop VISION_MAX_PAGES).Pairwise (· < ·) := by
      rw [List.take_append_drop]; exact hpair
    exact (List.pairwise_append.mp hpair2).2.2 x hx y hyd

def c8pages : List PageInfo := [initPage 0 "a", initPage 1 "b", initPage 2 "c"]

theorem C8_escalation_cap_witness : IndexWf c8pages ∧ C8Statement 55 3 c8pages :=
  ⟨by unfold IndexWf; decide, C8_escalation_cap 55 3 c8pages (by unfold IndexWf; decide)⟩

lemma applyOnePrediction_length (th : ℚ) (pages : List PageInfo) (pred : Prediction) :
    (applyOnePrediction th pages pred).length = pages.length := by
  rcases hpi : pred.pageIndex with _ | pi
  · simp [applyOnePrediction, hpi]
  · rcases hc : canonicalizeLabel pred.label with _ | canon
    · simp [applyOnePrediction, hpi, hc]
    · by_cases hr : (0 : Int) ≤ pi ∧ pi < (pages.length : Int)
      · simp [applyOnePrediction, hpi, hc, hr]
      · simp [applyOnePrediction, hpi, hr]

lemma applyPredictions_length (th : ℚ) :
    ∀ (preds : List Prediction) (pages : List PageInfo),
      (applyPredictions th pages preds).length = pages.length
  | [], _ => rfl
  | pred :: rest, pages => by
    have h1 : applyPredictions th pages (pred :: rest) =
        applyPredictions th (applyOnePrediction th pages pred) rest := rfl
    rw [h1, applyPredictions_length th rest, applyOnePrediction_length]

lemma execBlock_length (th : ℚ) (orc : Oracle) (iter : Nat) (pages : List PageInfo)
    (b : Block) : (execBlock th orc iter pages b).length = pages.length := by
  unfold execBlock
  split
  · rcases hv : orc.vision iter b.targetStart with _ | lc
    · simp [hv]
    · simp only [hv]
      by_cases hl : b.targetStart < pages.length <;>
        simp [hl, applyPredictions_length, List.length_set]
  · by_cases hp : (orc.ask iter b).isEmpty
    · simp [hp]
    · simp [hp, applyPredictions_length]

lemma execBlocks_length (th : ℚ) (orc : Oracle) (iter : Nat) :
    ∀ (blocks : List Block) (pages : List PageInfo),
      (execBlocks th orc iter pages blocks).length = pages.length
  | [], _ => rfl
  | b :: rest, pages => by
    have h1 : execBlocks th orc iter pages (b :: rest) =
        execBlocks th orc iter (execBlock th orc iter pages b) rest := rfl
    rw [h1, execBlocks_length th orc iter rest, execBlock_length]

lemma runLoop_length (th : ℚ) (bs ctx : Nat) (orc : Oracle) :
    ∀ (fuel iter : Nat) (pages : List PageInfo),
      (runLoop th bs ctx orc fuel iter pages).1.length = pages.length
  | 0, _, _ => rfl
  | fuel + 1, iter, pages => by
    rw [runLoop]
    by_cases hall : pages.all (fun p => p.is_final)
    · simp [hall]
    · by_cases hemp : (passBlocks bs ctx pages iter).isEmpty
      · simp [hall, hemp]
      · simp [hall, hemp, runLoop_length th bs ctx orc fuel, execBlocks_length]

lemma runLoop_passes (th : ℚ) (bs ctx : Nat) (orc : Oracle) :
    ∀ (fuel iter : Nat) (pages : List PageInfo),
      (runLoop th bs ctx orc fuel iter pages).2 ≤ iter + fuel
  | 0, iter, _ => by simp [runLoop]
  | fuel + 1, iter, pages => by
    rw [runLoop]
    by_cases hall : pages.all (fun p => p.is_final)
    · simp [hall]
    · by_cases hemp : (passBlocks bs ctx pages iter).isEmpty
      · simp [hall, hemp]
      · have h := runLoop_passes th bs ctx orc fuel (iter + 1)
          (execBlocks th orc iter pages (passBlocks bs ctx pages iter))
        simp only [hall, hemp]
        simp
        omega

lemma chunkRange_length_le (bs ctx : Nat) (pages : List PageInfo) :
    ∀ s e, (chunkRange bs ctx pages s e).length ≤ e + 1 - s := by
  have H : ∀ n s e, e + 1 - s ≤ n → (chunkRange bs ctx pages s e).length ≤ e + 1 - s := by
    intro n
    induction n with
    | zero =>
      intro s e h
      rw [chunkRange]
      have hse : ¬ s ≤ e := by omega
      simp [hse]
    | succ n ih =>
      intro s e h
      rw [chunkRange]
      by_cases hse : s ≤ e
      · have hend : s ≤ min (s + max 1 bs - 1) e := by
          have h1 : 1 ≤ max 1 bs := le_max_left _ _
          omega
        have hrest := ih (min (s + max 1 bs - 1) e + 1) e (by omega)
        simp only [hse, if_true]
        split
        · simp only [List.length_cons]
          omega
        · omega
      · simp [hse]
  intro s e
  exact H (e + 1 - s) s e le_rfl

/-- The property bundle of claim C9: the pass count is bounded by the (clamped)
iteration budget for any collaborator behavior, no page record is ever discarded,
the splitter always produces the aggregated section list of the final state, and
the chunking loop emits at most one block per page of a range (it strictly
advances). -/
def C9Statement (th : ℚ) (bs ctx maxIter : Nat) (orc : Oracle)
    (pages : List PageInfo) : Prop :=
  (runClassification th bs ctx maxIter orc pages).2 ≤ max 1 maxIter ∧
  (runClassification th bs ctx maxIter orc pages).1.length = pages.length ∧
  splitterRun th bs ctx maxIter orc pages =
    aggregate (runClassification th bs ctx maxIter orc pages).1 ∧
  (∀ s e, (chunkRange bs ctx pages s e).length ≤ e + 1 - s)

/-- C9: for every input page list and every collaborator behavior (failures,
malformed results and empty prediction lists included), the classification run
terminates within the iteration budget, keeps every page record (with its
best-known label and confidence), and the pipeline always produces a section
list; each pass builds finitely many blocks since the chunking loop strictly
advances. -/
theorem C9_termination (th : ℚ) (bs ctx maxIter : Nat) (orc : Oracle)
    (pages : List PageInfo) : C9Statement th bs ctx maxIter orc pages :=
  ⟨by simpa using runLoop_passes th bs ctx orc (max 1 maxIter) 0 pages,
   runLoop_length th bs ctx orc _ _ _,
   rfl,
   chunkRange_length_le bs ctx pages⟩

/-- Consecutive pages carry consecutive indices (holds for extracted page lists). -/
def chainRel (a b : PageInfo) : Prop := b.index = a.index + 1

lemma dropWhile_length_le {α : Type _} (f : α → Bool) :
    ∀ (l : List α), (l.dropWhile f).length ≤ l.length
  | [] => le_refl _
  | a :: l => by
    rw [List.dropWhile_cons]
    split
    · exact le_trans (dropWhile_length_le f l) (Nat.le_succ _)
    · exact le_refl _

/-- Spec-side view for C5, following the claim text: the maximal runs of
consecutive pages sharing one non-blank label, each recorded as (label,
start_index, last_index_in_run); an unlabeled page separates runs. -/
def specRuns : List PageInfo → List (String × Int × Int)
  | [] => []
  | p :: ps =>
    if blankLabel p.label then specRuns ps
    else
      (p.label.getD "", ((p.index : Int)),
          (((ps.takeWhile (fun q => q.label == p.label)).getLastD p).index : Int)) ::
        specRuns (ps.dropWhile (fun q => q.label == p.label))
termination_by l => l.length
decreasing_by
  · simp
  · exact Nat.lt_succ_of_le (dropWhile_length_le _ _)

/-- Spec-side section list for C5: one section per run, startPage = start_index + 1
and endPage = last_index_in_run + 1. -/
def specSections (pages : List PageInfo) : List Section :=
  (specRuns pages).map (fun r => sectionDict r.1 r.2.1 r.2.2)

/-- The final close of aggregate, with the closing index as a parameter. -/
def closeAgg (lastIdx : Int) : List Section × Option (String × Int) → List Section
  | (secs, none) => secs
  | (secs, some st) => secs ++ [sectionDict st.1 st.2 lastIdx]

lemma blankLabel_false {o : Option String} (h : blankLabel o = false) :
    ∃ l, o = some l ∧ l ≠ "" := by
  cases o with
  | none => simp [blankLabel] at h
  | some s =>
    refine ⟨s, rfl, ?_⟩
    simpa [blankLabel] using h

lemma blankLabel_some_false {l : String} (hl : l ≠ "") : blankLabel (some l) = false := by
  simp [blankLabel, hl]

lemma aggregateGo_skip (l : String) (hl : l ≠ "") (s : Int) :
    ∀ (ps : List PageInfo) (secs : List Section),
      aggregateGo secs (some (l, s)) ps =
        aggregateGo secs (some (l, s)) (ps.dropWhile (fun q => q.label == some l))
  | [], secs => rfl
  | q :: qs, secs => by
    rw [List.dropWhile_cons]
    by_cases hq : (q.label == some l) = true
    · have hql : q.label = some l := by simpa using hq
      have hstep : aggregateGo secs (some (l, s)) (q :: qs) =
          aggregateGo secs (some (l, s)) qs := by
        simp [aggregateGo, hql, blankLabel_some_false hl]
      rw [hstep, if_pos hq]
      exact aggregateGo_skip l hl s qs secs
    · rw [if_neg hq]

lemma getLastQ_cons {α : Type _} : ∀ (l : List α) (a : α),
    (a :: l).getLast? = some (l.getLastD a)
  | [], _ => rfl
  | b :: bs, a => by
    rw [List.getLast?_cons_cons, getLastQ_cons bs b, List.getLastD_cons]

lemma getLastD_congr {α : Type _} : ∀ (l : List α) (d d' : α), l ≠ [] →
    l.getLastD d = l.getLastD d'
  | [], _, _, h => absurd rfl h
  | b :: bs, d, d', _ => by rw [List.getLastD_cons, List.getLastD_cons]

lemma getLastD_append {α : Type _} : ∀ (l₁ l₂ : List α) (d : α), l₂ ≠ [] →
    (l₁ ++ l₂).getLastD d = l₂.getLastD d
  | [], l₂, d, _ => by simp
  | a :: l₁, l₂, d, h => by
    rw [List.cons_append, List.getLastD_cons, getLastD_append l₁ l₂ a h,
      getLastD_congr l₂ a d h]

lemma chain_run_succ (p q : PageInfo) (run rest : List PageInfo)
    (hch : List.Chain' chainRel ((p :: run) ++ q :: rest)) :
    q.index = (run.getLastD p).index + 1 := by
  have h3 := (List.chain'_append.mp hch).2.2
  exact h3 (run.getLastD p) (getLastQ_cons run p) q rfl

lemma dropWhile_head_false {α : Type _} (f : α → Bool) :
    ∀ (l : List α) (q : α) (t : List α), l.dropWhile f = q :: t → f q = false
  | [], q, t, h => by simp at h
  | a :: l, q, t, h => by
    rw [List.dropWhile_cons] at h
    by_cases ha : f a = true
    · rw [if_pos ha] at h
      exact dropWhile_head_false f l q t h
    · rw [if_neg ha] at h
      cases h
      simpa using ha

lemma aggregateGo_spec :
    ∀ (n : Nat) (ps : List PageInfo), ps.length ≤ n →
      ∀ (secs : List Section) (lastIdx : Int),
      List.Chain' chainRel ps →
      (ps ≠ [] → lastIdx = ((ps.getLastD default).index : Int)) →
      closeAgg lastIdx (aggregateGo secs none ps) = secs ++ specSections ps := by
  intro n
  induction n with
  | zero =>
    intro ps hlen secs lastIdx hch hlast
    have hnil : ps = [] := List.length_eq_zero.mp (Nat.le_zero.mp hlen)
    subst hnil
    simp [aggregateGo, closeAgg, specSections, specRuns]
  | succ n ih =>
    intro ps hlen secs lastIdx hch hlast
    cases ps with
    | nil => simp [aggregateGo, closeAgg, specSections, specRuns]
    | cons p ps2 =>
      have hlen2 : ps2.length ≤ n := by
        have := hlen
        simp only [List.length_cons] at this
        omega
      by_cases hbl : blankLabel p.label = true
      · -- blank page: skipped by the scan, and a gap on the spec side
        have hstep : aggregateGo secs none (p :: ps2) = aggregateGo secs none ps2 := by
          simp [aggregateGo, hbl]
        have hspec : specSections (p :: ps2) = specSections ps2 := by
          simp [specSections, specRuns, hbl]
        rw [hstep, hspec]
        refine ih ps2 hlen2 secs lastIdx hch.tail ?_
        intro hne
        have h1 := hlast (by simp)
        rw [List.getLastD_cons, getLastD_congr ps2 p default hne] at h1
        exact h1
      · -- non-blank page: opens a run
        have hbl' : blankLabel p.label = false := by simpa using hbl
        obtain ⟨l, hpl, hl⟩ := blankLabel_false hbl'
        have hopen : aggregateGo secs none (p :: ps2) =
            aggregateGo secs (some (l, (p.index : Int))) ps2 := by
          simp [aggregateGo, hpl, blankLabel_some_false hl]
        have hskip : aggregateGo secs (some (l, (p.index : Int))) ps2 =
            aggregateGo secs (some (l, (p.index : Int)))
              (ps2.dropWhile (fun q => q.label == some l)) :=
          aggregateGo_skip l hl _ ps2 secs
        have hsplit : ps2.takeWhile (fun q => q.label == some l) ++
            ps2.dropWhile (fun q => q.label == some l) = ps2 :=
          List.takeWhile_append_dropWhile (p := fun q => q.label == some l) (l := ps2)
        have hspec : specSections (p :: ps2) =
            sectionDict l (p.index : Int)
                (((ps2.takeWhile (fun q => q.label == some l)).getLastD p).index : Int) ::
              specSections (ps2.dropWhile (fun q => q.label == some l)) := by
          rw [specSections, specRuns]
          simp [hpl, blankLabel_some_false hl, specSections]
        cases hre : ps2.dropWhile (fun q => q.label == some l) with
        | nil =>
          have hps2 : ps2 = ps2.takeWhile (fun q => q.label == some l) := by
            conv_lhs => rw [← hsplit, hre]
            rw [List.append_nil]
          have hlast2 : lastIdx =
              (((ps2.takeWhile (fun q => q.label == some l)).getLastD p).index : Int) := by
            have h1 := hlast (by simp)
            rw [List.getLastD_cons] at h1
            rw [h1]
            conv_lhs => rw [hps2]
          rw [hopen, hskip, hre, hspec, hre]
          show secs ++ [sectionDict l (p.index : Int) lastIdx] = _
          rw [hlast2]
          simp [specSections, specRuns]
        | cons q rest2 =>
          have hq : (fun q => q.label == some l) q = false :=
            dropWhile_head_false _ ps2 q rest2 hre
          have hqlabel : (q.label == some l) = false := hq
          have h0 : ps2 = ps2.takeWhile (fun q => q.label == some l) ++ q :: rest2 := by
            rw [← hre, hsplit]
          have hpsdecomp : p :: ps2 =
              (p :: ps2.takeWhile (fun q => q.label == some l)) ++ q :: rest2 := by
            rw [List.cons_append, ← h0]
          have hchain2 : List.Chain' chainRel
              ((p :: ps2.takeWhile (fun q => q.label == some l)) ++ q :: rest2) := by
            rw [← hpsdecomp]; exact hch
          have hqidx : q.index =
              ((ps2.takeWhile (fun q => q.label == some l)).getLastD p).index + 1 :=
            chain_run_succ p q _ rest2 hchain2
          have hqidxInt : ((q.index : Int)) - 1 =
              (((ps2.takeWhile (fun q => q.label == some l)).getLastD p).index : Int) := by
            rw [hqidx]; push_cast; ring
          have hlens : ps2.length =
              (ps2.takeWhile (fun q => q.label == some l)).length + (q :: rest2).length := by
            conv_lhs => rw [← hsplit]
            rw [hre, List.length_append]
          have hchainTail : List.Chain' chainRel (q :: rest2) :=
            (List.chain'_append.mp hchain2).2.1
          have hlastTail : lastIdx = (((q :: rest2).getLastD default).index : Int) := by
            have h1 := hlast (by simp)
            rw [hpsdecomp, getLastD_append _ _ _ (by simp)] at h1
            exact h1
          by_cases hqb : blankLabel q.label = true
          · -- the offending page is unlabeled: close the run, no new run opens
            have hstep2 : aggregateGo secs (some (l, (p.index : Int))) (q :: rest2) =
                aggregateGo
                  (secs ++ [sectionDict l (p.index : Int) ((q.index : Int) - 1)])
                  none rest2 := by
              simp [aggregateGo, hqb]
            have hspecq : specSections (q :: rest2) = specSections rest2 := by
              simp [specSections, specRuns, hqb]
            have hlastR : rest2 ≠ [] → lastIdx = ((rest2.getLastD default).index : Int) := by
              intro hne
              rw [hlastTail, List.getLastD_cons, getLastD_congr rest2 q default hne]
            have hih := ih rest2 (by simp only [List.length_cons] at hlens; omega)
              (secs ++ [sectionDict l (p.index : Int)
                (((ps2.takeWhile (fun q => q.label == some l)).getLastD p).index : Int)])
              lastIdx hchainTail.tail hlastR
            rw [hopen, hskip, hre, hstep2, hqidxInt, hih, hspec, hre, hspecq]
            simp
          · -- the offending page has a different label: close and reopen
            have hqb' : blankLabel q.label = false := by simpa using hqb
            have hstep2 : aggregateGo secs (some (l, (p.index : Int))) (q :: rest2) =
                aggregateGo
                  (secs ++ [sectionDict l (p.index : Int) ((q.index : Int) - 1)])
                  (some (q.label.getD "", (q.index : Int))) rest2 := by
              simp [aggregateGo, hqb', hqlabel]
            have hreopen : aggregateGo
                (secs ++ [sectionDict l (p.index : Int)
                  (((ps2.takeWhile (fun q => q.label == some l)).getLastD p).index : Int)])
                none (q :: rest2) =
                aggregateGo
                  (secs ++ [sectionDict l (p.index : Int)
                    (((ps2.takeWhile (fun q => q.label == some l)).getLastD p).index : Int)])
                  (some (q.label.getD "", (q.index : Int))) rest2 := by
              simp [aggregateGo, hqb']
            have hih := ih (q :: rest2) (by simp only [List.length_cons] at hlens ⊢; omega)
              (secs ++ [sectionDict l (p.index : Int)
                (((ps2.takeWhile (fun q => q.label == some l)).getLastD p).index : Int)])
              lastIdx hchainTail (fun _ => hlastTail)
            rw [hopen, hskip, hre, hstep2, hqidxInt, ← hreopen, hih, hspec, hre]
            simp

lemma map_getLastD {α β : Type _} (f : α → β) : ∀ (l : List α) (d : α),
    (l.map f).getLastD (f d) = f (l.getLastD d)
  | [], _ => rfl
  | a :: l, d => by
    rw [List.map_cons, List.getLastD_cons, List.getLastD_cons, map_getLastD f l a]

lemma aggregateGo_congr :
    ∀ (l1 l2 : List PageInfo) (secs : List Section) (cur : Option (String × Int)),
      l1.map (fun p => (p.index, p.label)) = l2.map (fun p => (p.index, p.label)) →
      aggregateGo secs cur l1 = aggregateGo secs cur l2
  | [], l2, secs, cur, h => by
    cases l2 with
    | nil => rfl
    | cons b bs => simp at h
  | a :: l1, l2, secs, cur, h => by
    cases l2 with
    | nil => simp at h
    | cons b bs =>
      simp only [List.map_cons, List.cons.injEq] at h
      obtain ⟨hab, htail⟩ := h
      have hidx : a.index = b.index := congrArg Prod.fst hab
      have hlab : a.label = b.label := congrArg Prod.snd hab
      cases cur with
      | none =>
        simp only [aggregateGo, hlab, hidx]
        by_cases hb : blankLabel b.label = true
        · rw [if_pos hb, if_pos hb]
          exact aggregateGo_congr l1 bs secs none htail
        · rw [if_neg hb, if_neg hb]
          exact aggregateGo_congr l1 bs secs _ htail
      | some st =>
        simp only [aggregateGo, hlab, hidx]
        by_cases hb : blankLabel b.label = true
        · rw [if_pos hb, if_pos hb]
          exact aggregateGo_congr l1 bs _ none htail
        · rw [if_neg hb, if_neg hb]
          by_cases he : (b.label == some st.1) = true
          · rw [if_pos he, if_pos he]
            exact aggregateGo_congr l1 bs secs _ htail
          · rw [if_neg he, if_neg he]
            exact aggregateGo_congr l1 bs _ _ htail

lemma aggregate_congr (l1 l2 : List PageInfo)
    (h : l1.map (fun p => (p.index, p.label)) = l2.map (fun p => (p.index, p.label))) :
    aggregate l1 = aggregate l2 := by
  have e1 := map_getLastD (fun p => (p.index, p.label)) l1 default
  have e2 := map_getLastD (fun p => (p.index, p.label)) l2 default
  rw [h] at e1
  have h3 := e1.symm.trans e2
  have hlast : (l1.getLastD default).index = (l2.getLastD default).index := by
    have h4 := congrArg Prod.fst h3
    simpa using h4
  unfold aggregate
  rw [aggregateGo_congr l1 l2 [] none h, hlast]

instance : DecidableRel chainRel := fun a b =>
  inferInstanceAs (Decidable (b.index = a.index + 1))

/-- One page of the C5 scenario: settled label (final when labeled). -/
def c5page (i : Nat) (lab : Option String) : PageInfo :=
  { index := i, text := "t", label := lab, confidence := 90, is_final := lab.isSome, ocr_quality := 80, needs_vision := false }

def c5pages : List PageInfo :=
  [c5page 0 (some "Minutes & Resolutions"), c5page 1 (some "Minutes & Resolutions"),
   c5page 2 (some "Minutes & Resolutions"), c5page 3 (some "Minutes & Resolutions"),
   c5page 4 (some "Minutes & Resolutions"), c5page 5 none,
   c5page 6 (some "Directors Register"), c5page 7 (some "Directors Register"),
   c5page 8 (some "Directors Register"), c5page 9 (some "Directors Register")]

/-- The property bundle of claim C5: the aggregator equals the spec's run-based
description on index-contiguous page lists, is a pure deterministic function of the
(index, label) state alone, and yields exactly the two expected sections on the
0-4 / gap / 6-9 scenario. -/
def C5Statement : Prop :=
  (∀ pages, List.Chain' chainRel pages → aggregate pages = specSections pages) ∧
  (∀ l1 l2 : List PageInfo,
      l1.map (fun p => (p.index, p.label)) = l2.map (fun p => (p.index, p.label)) →
      aggregate l1 = aggregate l2) ∧
  aggregate c5pages =
    [{ name := "Minutes & Resolutions", startPage := 1, endPage := 5 },
     { name := "Directors Register", startPage := 7, endPage := 10 }]

/-- C5: SectionAggregator.aggregate is a pure deterministic function of the pages'
(index, label) state; on lists whose indices run 0,1,2,... it produces exactly one
section per maximal run of a shared non-blank label, with startPage = start_index
+ 1 and endPage = last_index_in_run + 1 (unlabeled pages close runs and leave
gaps, the open run is closed at end of scan); and the 10-page scenario returns
exactly the two expected sections. -/
theorem C5_aggregator_runs : C5Statement := by
  refine ⟨?_, ?_, ?_⟩
  · intro pages hch
    have heq : aggregate pages =
        closeAgg ((pages.getLastD default).index : Int) (aggregateGo [] none pages) := by
      unfold aggregate closeAgg
      rcases aggregateGo [] none pages with ⟨secs, cur⟩
      cases cur <;> rfl
    rw [heq, aggregateGo_spec pages.length pages le_rfl []
      ((pages.getLastD default).index : Int) hch (fun _ => rfl)]
    simp
  · exact fun l1 l2 h => aggregate_congr l1 l2 h
  · decide

theorem C5_aggregator_runs_witness :
    List.Chain' chainRel c5pages ∧ aggregate c5pages = specSections c5pages := by
  have hch : List.Chain' chainRel c5pages := by
    simp [c5pages, c5page, List.chain'_cons, chainRel]
  exact ⟨hch, C5_aggregator_runs.1 c5pages hch⟩

/-- The target page indices of a block: pageIndex of its payload entries marked
isTarget. -/
def targetIdxs (b : Block) : List Nat :=
  (b.pagesPayload.filter (fun e => e.isTarget)).map (fun e => e.pageIndex)

/-- Two blocks have no target page in common. -/
def disjointTargets (b₁ b₂ : Block) : Prop :=
  ∀ i, i ∈ targetIdxs b₁ → i ∉ targetIdxs b₂

lemma payload_has_target {ctx : Nat} {pages : List PageInfo} {ts te : Int} {b : Block}
    (h : buildBlockPayload ctx pages ts te = some b) : targetIdxs b ≠ [] := by
  simp only [buildBlockPayload] at h
  split at h
  · exact absurd h (by simp)
  · split at h
    · rename_i hAny
      cases h
      intro hnil
      obtain ⟨e, he, htgt⟩ := List.any_eq_true.mp hAny
      have : e.pageIndex ∈ targetIdxs
          { targetStart := (max 0 ts).toNat,
            targetEnd := (min ((pages.length : Int) - 1) te).toNat,
            pagesPayload := (List.range'
              ((max 0 (max 0 ts - (ctx : Int))).toNat)
              ((min ((pages.length : Int)) (min ((pages.length : Int) - 1) te +
                (ctx : Int) + 1)).toNat -
                (max 0 (max 0 ts - (ctx : Int))).toNat)).map (fun idx =>
              toBlockEntry (pages.getD idx default)
                (decide (max 0 ts ≤ (idx : Int) ∧
                    (idx : Int) ≤ min ((pages.length : Int) - 1) te) &&
                  !(pages.getD idx default).is_final)) } := by
        unfold targetIdxs
        exact List.mem_map_of_mem _ (List.mem_filter.mpr ⟨he, htgt⟩)
      rw [hnil] at this
      exact absurd this (by simp)
    · exact absurd h (by simp)

lemma payload_target_mem {ctx : Nat} {pages : List PageInfo} {ts te : Int} {b : Block}
    (hwf : IndexWf pages) (h : buildBlockPayload ctx pages ts te = some b) :
    ∀ x ∈ targetIdxs b, ts ≤ (x : Int) ∧ (x : Int) ≤ te ∧ x < pages.length ∧
      (pages.getD x default).is_final = false := by
  intro x hx
  simp only [buildBlockPayload] at h
  split at h
  · exact absurd h (by simp)
  · rename_i hgt
    split at h
    · cases h
      unfold targetIdxs at hx
      obtain ⟨e, he, hex⟩ := List.mem_map.mp hx
      obtain ⟨he2, htgt⟩ := List.mem_filter.mp he
      obtain ⟨idx, hidxmem, hee⟩ := List.mem_map.mp he2
      subst hee
      have hcond : (decide (max 0 ts ≤ (idx : Int) ∧
          (idx : Int) ≤ min ((pages.length : Int) - 1) te) &&
          !(pages.getD idx default).is_final) = true := htgt
      obtain ⟨hc1, hc2⟩ := Bool.and_eq_true_iff.mp hcond
      have hrange : max 0 ts ≤ (idx : Int) ∧
          (idx : Int) ≤ min ((pages.length : Int) - 1) te := of_decide_eq_true hc1
      have hfin : (pages.getD idx default).is_final = false := by simpa using hc2
      have hlt : idx < pages.length := by
        have h1 : (idx : Int) ≤ (pages.length : Int) - 1 :=
          le_trans hrange.2 (min_le_left _ _)
        omega
      have hxi : x = idx := by
        rw [← hex]
        exact indexWf_index_eq hwf hlt
      subst hxi
      refine ⟨le_trans (le_max_right _ _) hrange.1, le_trans hrange.2 (min_le_right _ _),
        hlt, hfin⟩
    · exact absurd h (by simp)

lemma payload_none_of_final {ctx : Nat} {pages : List PageInfo} {ts te : Int}
    (hfin : ∀ k : Nat, ts ≤ (k : Int) → (k : Int) ≤ te → k < pages.length →
      (pages.getD k default).is_final = true) :
    buildBlockPayload ctx pages ts te = none := by
  simp only [buildBlockPayload]
  split
  · rfl
  · rename_i hgt
    rw [if_neg]
    intro hAny
    obtain ⟨e, he, htgt⟩ := List.any_eq_true.mp hAny
    obtain ⟨idx, hidxmem, hee⟩ := List.mem_map.mp he
    subst hee
    have hcond : (decide (max 0 ts ≤ (idx : Int) ∧
        (idx : Int) ≤ min ((pages.length : Int) - 1) te) &&
        !(pages.getD idx default).is_final) = true := htgt
    obtain ⟨hc1, hc2⟩ := Bool.and_eq_true_iff.mp hcond
    have hrange : max 0 ts ≤ (idx : Int) ∧
        (idx : Int) ≤ min ((pages.length : Int) - 1) te := of_decide_eq_true hc1
    have hlt : idx < pages.length := by
      have h1 : (idx : Int) ≤ (pages.length : Int) - 1 :=
        le_trans hrange.2 (min_le_left _ _)
      omega
    have := hfin idx (le_trans (le_max_right _ _) hrange.1)
      (le_trans hrange.2 (min_le_right _ _)) hlt
    rw [this] at hc2
    simp at hc2

lemma chunkRange_mem {bs ctx : Nat} {pages : List PageInfo} :
    ∀ (s e : Nat) (b : Block), b ∈ chunkRange bs ctx pages s e →
      ∃ cs2 ce2 : Nat, s ≤ cs2 ∧ cs2 ≤ ce2 ∧ ce2 ≤ e ∧
        buildBlockPayload ctx pages (cs2 : Int) (ce2 : Int) = some b := by
  have H : ∀ n s e, e + 1 - s ≤ n → ∀ b, b ∈ chunkRange bs ctx pages s e →
      ∃ cs2 ce2 : Nat, s ≤ cs2 ∧ cs2 ≤ ce2 ∧ ce2 ≤ e ∧
        buildBlockPayload ctx pages (cs2 : Int) (ce2 : Int) = some b := by
    intro n
    induction n with
    | zero =>
      intro s e h b hb
      rw [chunkRange] at hb
      have hse : ¬ s ≤ e := by omega
      simp [hse] at hb
    | succ n ih =>
      intro s e h b hb
      rw [chunkRange] at hb
      by_cases hse : s ≤ e
      · simp only [hse, if_true] at hb
        have h1 : 1 ≤ max 1 bs := le_max_left _ _
        have hend : s ≤ min (s + max 1 bs - 1) e := by omega
        rcases hp : buildBlockPayload ctx pages (s : Int)
            (((min (s + max 1 bs - 1) e : Nat) : Int)) with _ | b0
        · rw [hp] at hb
          obtain ⟨cs2, ce2, g1, g2, g3, g4⟩ :=
            ih (min (s + max 1 bs - 1) e + 1) e (by omega) b hb
          exact ⟨cs2, ce2, by omega, g2, g3, g4⟩
        · rw [hp] at hb
          rcases List.mem_cons.mp hb with rfl | hb2
          · exact ⟨s, min (s + max 1 bs - 1) e, le_refl _, hend, min_le_right _ _, hp⟩
          · obtain ⟨cs2, ce2, g1, g2, g3, g4⟩ :=
              ih (min (s + max 1 bs - 1) e + 1) e (by omega) b hb2
            exact ⟨cs2, ce2, by omega, g2, g3, g4⟩
      · simp [hse] at hb
  intro s e b hb
  exact H (e + 1 - s) s e le_rfl b hb

lemma chunkRange_pairwise {bs ctx : Nat} {pages : List PageInfo} (hwf : IndexWf pages) :
    ∀ (s e : Nat), (chunkRange bs ctx pages s e).Pairwise disjointTargets := by
  have H : ∀ n s e, e + 1 - s ≤ n →
      (chunkRange bs ctx pages s e).Pairwise disjointTargets := by
    intro n
    induction n with
    | zero =>
      intro s e h
      rw [chunkRange]
      have hse : ¬ s ≤ e := by omega
      simp [hse]
    | succ n ih =>
      intro s e h
      rw [chunkRange]
      by_cases hse : s ≤ e
      · simp only [hse, if_true]
        have h1 : 1 ≤ max 1 bs := le_max_left _ _
        have hend : s ≤ min (s + max 1 bs - 1) e := by omega
        have hrest := ih (min (s + max 1 bs - 1) e + 1) e (by omega)
        rcases hp : buildBlockPayload ctx pages (s : Int)
            (((min (s + max 1 bs - 1) e : Nat) : Int)) with _ | b0
        · exact hrest
        · refine List.Pairwise.cons ?_ hrest
          intro b2 hb2 i hi hib2
          obtain ⟨-, hte, -, -⟩ := payload_target_mem hwf hp i hi
          obtain ⟨cs2, ce2, g1, g2, g3, g4⟩ :=
            chunkRange_mem (min (s + max 1 bs - 1) e + 1) e b2 hb2
          obtain ⟨hts2, -, -, -⟩ := payload_target_mem hwf g4 i hib2
          omega
      · simp [hse]
  intro s e
  exact H (e + 1 - s) s e le_rfl

lemma buildBlocksFromRanges_mem {bs ctx : Nat} {pages : List PageInfo}
    {ranges : List (Nat × Nat)} {b : Block}
    (hb : b ∈ buildBlocksFromRanges bs ctx pages ranges) :
    ∃ r ∈ ranges, ∃ cs2 ce2 : Nat, r.1 ≤ cs2 ∧ cs2 ≤ ce2 ∧ ce2 ≤ r.2 ∧
      buildBlockPayload ctx pages (cs2 : Int) (ce2 : Int) = some b := by
  unfold buildBlocksFromRanges at hb
  obtain ⟨l, hl, hbl⟩ := List.mem_flatten.mp hb
  obtain ⟨r, hr, rfl⟩ := List.mem_map.mp hl
  obtain ⟨cs2, ce2, g1, g2, g3, g4⟩ := chunkRange_mem r.1 r.2 b hbl
  exact ⟨r, hr, cs2, ce2, g1, g2, g3, g4⟩

lemma buildBlocksFromRanges_pairwise {bs ctx : Nat} {pages : List PageInfo}
    (hwf : IndexWf pages) {ranges : List (Nat × Nat)}
    (hr : ranges.Pairwise (fun r1 r2 => r1.2 < r2.1)) :
    (buildBlocksFromRanges bs ctx pages ranges).Pairwise disjointTargets := by
  unfold buildBlocksFromRanges
  rw [List.pairwise_flatten]
  constructor
  · intro l hl
    obtain ⟨r, hrmem, rfl⟩ := List.mem_map.mp hl
    exact chunkRange_pairwise hwf r.1 r.2
  · rw [List.pairwise_map]
    refine hr.imp ?_
    intro r1 r2 hlt x hx y hy i hix hiy
    obtain ⟨cs2, ce2, ha1, ha2, ha3, hp1⟩ := chunkRange_mem r1.1 r1.2 x hx
    obtain ⟨cs3, ce3, hb1, hb2, hb3, hp2⟩ := chunkRange_mem r2.1 r2.2 y hy
    obtain ⟨-, f2, -, -⟩ := payload_target_mem hwf hp1 i hix
    obtain ⟨f3, -, -, -⟩ := payload_target_mem hwf hp2 i hiy
    omega

lemma insertAsc_of_le (x : Nat) : ∀ (l : List Nat), (∀ y ∈ l, x ≤ y) → insertAsc x l = x :: l
  | [], _ => rfl
  | y :: ys, h => by
    rw [insertAsc, if_pos (h y (by simp))]

lemma sortAsc_eq_self : ∀ (l : List Nat), l.Pairwise (· ≤ ·) → sortAsc l = l
  | [], _ => rfl
  | x :: xs, h => by
    obtain ⟨h1, h2⟩ := List.pairwise_cons.mp h
    have hfold : sortAsc (x :: xs) = insertAsc x (sortAsc xs) := rfl
    rw [hfold, sortAsc_eq_self xs h2, insertAsc_of_le x xs h1]

lemma contiguousRangesAux_spec :
    ∀ (rest : List Nat) (start prev : Nat), start ≤ prev →
      rest.Pairwise (· < ·) → (∀ y ∈ rest, prev < y) →
      (∀ r ∈ contiguousRangesAux start prev rest, start ≤ r.1 ∧ r.1 ≤ r.2) ∧
      (contiguousRangesAux start prev rest).Pairwise (fun r1 r2 => r1.2 < r2.1)
  | [], start, prev, hsp, _, _ => by
    constructor
    · intro r hr
      rw [contiguousRangesAux] at hr
      rcases List.mem_singleton.mp hr with rfl
      exact ⟨le_refl _, hsp⟩
    · rw [contiguousRangesAux]
      simp
  | idx :: rest, start, prev, hsp, hpw, hgt => by
    obtain ⟨h1, h2⟩ := List.pairwise_cons.mp hpw
    have hidx : prev < idx := hgt idx (by simp)
    rw [contiguousRangesAux]
    by_cases hadj : idx = prev + 1
    · rw [if_pos hadj]
      exact contiguousRangesAux_spec rest start idx (by omega) h2 h1
    · rw [if_neg hadj]
      have iha := contiguousRangesAux_spec rest idx idx (le_refl _) h2 h1
      constructor
      · intro r hr
        rcases List.mem_cons.mp hr with rfl | hr2
        · exact ⟨le_refl _, hsp⟩
        · have hb := iha.1 r hr2
          exact ⟨by omega, hb.2⟩
      · refine List.Pairwise.cons ?_ iha.2
        intro r2 hr2
        have hb := (iha.1 r2 hr2).1
        show prev < r2.1
        omega

lemma contiguousRanges_pairwise (idxs : List Nat) (h : idxs.Pairwise (· < ·)) :
    (contiguousRanges idxs).Pairwise (fun r1 r2 => r1.2 < r2.1) := by
  unfold contiguousRanges
  rw [sortAsc_eq_self idxs (h.imp (fun hab => le_of_lt hab))]
  cases idxs with
  | nil => simp
  | cons x rest =>
    obtain ⟨h1, h2⟩ := List.pairwise_cons.mp h
    exact (contiguousRangesAux_spec rest x x (le_refl _) h2 h1).2

lemma drop_cons_getD {pages : List PageInfo} {i : Nat} {p : PageInfo} {ps : List PageInfo}
    (h : pages.drop i = p :: ps) : pages.getD i default = p := by
  have h0 : pages[i]? = some p := by
    have h1 := List.getElem?_drop pages i 0
    rw [h] at h1
    simpa using h1.symm
  simp [List.getD, h0]

lemma drop_succ_of_drop_cons {pages : List PageInfo} {i : Nat} {p : PageInfo}
    {ps : List PageInfo} (h : pages.drop i = p :: ps) : pages.drop (i + 1) = ps := by
  have h2 := congrArg (List.drop 1) h
  rw [List.drop_drop] at h2
  simpa using h2

lemma contains_true_of_mem {l : List Nat} {x : Nat} (h : x ∈ l) : l.contains x = true :=
  List.elem_iff.mpr h

lemma labelRunsGo_spec (excl : List Nat) (pages : List PageInfo) :
    ∀ (rest : List PageInfo) (i : Nat), rest = pages.drop i →
      ∀ (cur : Option (Nat × Option String)),
      (∀ st, cur = some st → st.1 < i ∧
        ∀ k, st.1 ≤ k → k < i → (pages.getD k default).index ∉ excl) →
      (∀ r ∈ labelRunsGo excl cur i rest,
          r.1 ≤ r.2 ∧
          (∀ k, r.1 ≤ k → k ≤ r.2 → (pages.getD k default).index ∉ excl) ∧
          (∀ st, cur = some st → st.1 ≤ r.1) ∧ (cur = none → i ≤ r.1)) ∧
      (labelRunsGo excl cur i rest).Pairwise (fun r1 r2 => r1.2 < r2.1)
  | [], i, hdrop, cur, hcur => by
    cases cur with
    | none =>
      constructor
      · intro r hr
        rw [labelRunsGo] at hr
        simp at hr
      · rw [labelRunsGo]
        simp
    | some st =>
      obtain ⟨hlt, hok⟩ := hcur st rfl
      constructor
      · intro r hr
        rw [labelRunsGo] at hr
        rcases List.mem_singleton.mp hr with rfl
        refine ⟨by omega, ?_, ?_, by intro h; cases h⟩
        · intro k hk1 hk2
          exact hok k hk1 (by omega)
        · intro st2 h
          cases h
          exact le_refl _
      · rw [labelRunsGo]
        simp
  | p :: ps, i, hdrop, cur, hcur => by
    have hpi : pages.getD i default = p := drop_cons_getD hdrop.symm
    have hps : ps = pages.drop (i + 1) := (drop_succ_of_drop_cons hdrop.symm).symm
    cases cur with
    | none =>
      rw [labelRunsGo]
      by_cases hbad : (p.is_final || excl.contains p.index) = true
      · rw [if_pos hbad]
        have ih := labelRunsGo_spec excl pages ps (i + 1) hps none
          (by intro st h; cases h)
        constructor
        · intro r hr
          obtain ⟨g1, g2, g3, g4⟩ := ih.1 r hr
          refine ⟨g1, g2, ?_, ?_⟩
          · intro st h; cases h
          · intro h2
            have h5 := g4 rfl
            omega
        · exact ih.2
      · rw [if_neg hbad]
        have hnotex : (pages.getD i default).index ∉ excl := by
          rw [hpi]
          intro hmem
          exact hbad (by rw [contains_true_of_mem hmem, Bool.or_true])
        have ih := labelRunsGo_spec excl pages ps (i + 1) hps (some (i, p.label)) ?_
        · constructor
          · intro r hr
            obtain ⟨g1, g2, g3, g4⟩ := ih.1 r hr
            have hlow : i ≤ r.1 := g3 (i, p.label) rfl
            refine ⟨g1, g2, ?_, fun _ => hlow⟩
            intro st h; cases h
          · exact ih.2
        · intro st h
          cases h
          refine ⟨by omega, ?_⟩
          intro k hk1 hk2
          have hk : k = i := by omega
          rw [hk]
          exact hnotex
    | some st =>
      obtain ⟨hstlt, hstok⟩ := hcur st rfl
      rw [labelRunsGo]
      by_cases hbad : (p.is_final || excl.contains p.index) = true
      · rw [if_pos hbad]
        have ih := labelRunsGo_spec excl pages ps (i + 1) hps none
          (by intro st2 h; cases h)
        constructor
        · intro r hr
          rcases List.mem_cons.mp hr with rfl | hr2
          · refine ⟨by omega, ?_, ?_, by intro h; cases h⟩
            · intro k hk1 hk2
              exact hstok k hk1 (by omega)
            · intro st2 h
              cases h
              exact le_refl _
          · obtain ⟨g1, g2, g3, g4⟩ := ih.1 r hr2
            have hge := g4 rfl
            refine ⟨g1, g2, ?_, ?_⟩
            · intro st2 h; cases h; omega
            · intro h; cases h
        · refine List.Pairwise.cons ?_ ih.2
          intro r2 hr2
          have hge := (ih.1 r2 hr2).2.2.2 rfl
          show i - 1 < r2.1
          omega
      · rw [if_neg hbad]
        have hnotex : (pages.getD i default).index ∉ excl := by
          rw [hpi]
          intro hmem
          exact hbad (by rw [contains_true_of_mem hmem, Bool.or_true])
        by_cases hlab : (p.label == st.2) = true
        · rw [if_pos hlab]
          have ih := labelRunsGo_spec excl pages ps (i + 1) hps (some st) ?_
          · constructor
            · intro r hr
              obtain ⟨g1, g2, g3, g4⟩ := ih.1 r hr
              refine ⟨g1, g2, g3, ?_⟩
              intro h; cases h
            · exact ih.2
          · intro st2 h
            cases h
            refine ⟨by omega, ?_⟩
            intro k hk1 hk2
            by_cases hk : k < i
            · exact hstok k hk1 hk
            · have hk2 : k = i := by omega
              rw [hk2]
              exact hnotex
        · rw [if_neg hlab]
          have ih := labelRunsGo_spec excl pages ps (i + 1) hps (some (i, p.label)) ?_
          · constructor
            · intro r hr
              rcases List.mem_cons.mp hr with rfl | hr2
              · refine ⟨by omega, ?_, ?_, by intro h; cases h⟩
                · intro k hk1 hk2
                  exact hstok k hk1 (by omega)
                · intro st2 h
                  cases h
                  exact le_refl _
              · obtain ⟨g1, g2, g3, g4⟩ := ih.1 r hr2
                have hge : i ≤ r.1 := g3 (i, p.label) rfl
                refine ⟨g1, g2, ?_, ?_⟩
                · intro st2 h; cases h; omega
                · intro h; cases h
            · refine List.Pairwise.cons ?_ ih.2
              intro r2 hr2
              have hge : i ≤ r2.1 := (ih.1 r2 hr2).2.2.1 (i, p.label) rfl
              show i - 1 < r2.1
              omega
          · intro st2 h
            cases h
            refine ⟨by omega, ?_⟩
            intro k hk1 hk2
            have hk : k = i := by omega
            rw [hk]
            exact hnotex

lemma retag_targets (b : Block) (s : String) :
    targetIdxs { b with engine := s } = targetIdxs b := rfl

lemma pairwise_retag {l : List Block} {s : String} (h : l.Pairwise disjointTargets) :
    (l.map (fun b => { b with engine := s })).Pairwise disjointTargets := by
  rw [List.pairwise_map]
  exact h.imp (fun hab => hab)

lemma filter_map_index_pairwise {pages : List PageInfo} (hwf : IndexWf pages)
    (f : PageInfo → Bool) :
    ((pages.filter f).map (fun p => p.index)).Pairwise (· < ·) := by
  have hsub : ((pages.filter f).map (fun p => p.index)).Sublist
      (pages.map (fun p => p.index)) :=
    (List.filter_sublist pages).map _
  rw [hwf] at hsub
  exact (List.pairwise_lt_range _).sublist hsub

lemma visionIdxs_pairwise {pages : List PageInfo} (hwf : IndexWf pages) :
    (visionIdxs pages).Pairwise (· < ·) :=
  (filter_map_index_pairwise hwf _).sublist (List.take_sublist _ _)

lemma visionBlocks_mem {ctx : Nat} {pages : List PageInfo} {b : Block}
    (hb : b ∈ visionBlocks ctx pages) :
    ∃ v ∈ visionIdxs pages, ∃ b0 : Block,
      buildBlockPayload ctx pages (v : Int) (v : Int) = some b0 ∧
        targetIdxs b = targetIdxs b0 := by
  obtain ⟨v, hv, hf⟩ := List.mem_filterMap.mp hb
  obtain ⟨b0, hb0, hretag⟩ := Option.map_eq_some'.mp hf
  exact ⟨v, hv, b0, hb0, by rw [← hretag]; rfl⟩

lemma visionBlocks_target {ctx : Nat} {pages : List PageInfo} {b : Block}
    (hwf : IndexWf pages) (hb : b ∈ visionBlocks ctx pages) :
    ∃ v ∈ visionIdxs pages, ∀ i ∈ targetIdxs b, i = v := by
  obtain ⟨v, hv, b0, hb0, htg⟩ := visionBlocks_mem hb
  refine ⟨v, hv, ?_⟩
  intro i hi
  rw [htg] at hi
  obtain ⟨h1, h2, -, -⟩ := payload_target_mem hwf hb0 i hi
  omega

lemma askBlocks_mem {bs ctx : Nat} {pages : List PageInfo} {b : Block}
    (hb : b ∈ askBlocks bs ctx pages) :
    ∃ b0 ∈ buildLabelBlocksExcluding bs ctx pages (visionIdxs pages),
      targetIdxs b = targetIdxs b0 := by
  obtain ⟨b0, hb0, hretag⟩ := List.mem_map.mp hb
  exact ⟨b0, hb0, by rw [← hretag]; rfl⟩

lemma labelRuns_top_spec (excl : List Nat) (pages : List PageInfo) :
    (∀ r ∈ labelRunsGo excl none 0 pages,
        r.1 ≤ r.2 ∧ (∀ k, r.1 ≤ k → k ≤ r.2 → (pages.getD k default).index ∉ excl)) ∧
    (labelRunsGo excl none 0 pages).Pairwise (fun r1 r2 => r1.2 < r2.1) := by
  have h := labelRunsGo_spec excl pages pages 0 (by simp) none (by intro st h2; cases h2)
  exact ⟨fun r hr => ⟨(h.1 r hr).1, (h.1 r hr).2.1⟩, h.2⟩

lemma askBlocks_target {bs ctx : Nat} {pages : List PageInfo} {b : Block}
    (hwf : IndexWf pages) (hb : b ∈ askBlocks bs ctx pages) :
    ∀ i ∈ targetIdxs b, i ∉ visionIdxs pages := by
  intro i hi
  obtain ⟨b0, hb0, htg⟩ := askBlocks_mem hb
  rw [htg] at hi
  obtain ⟨r, hr, cs2, ce2, g1, g2, g3, g4⟩ := buildBlocksFromRanges_mem hb0
  obtain ⟨f1, f2, f3, -⟩ := payload_target_mem hwf g4 i hi
  have hspan := (labelRuns_top_spec (visionIdxs pages) pages).1 r hr
  have hidx := hspan.2 i (by omega) (by omega)
  rw [indexWf_index_eq hwf f3] at hidx
  exact hidx

lemma buildLabelBlocksExcluding_pairwise {bs ctx : Nat} {pages : List PageInfo}
    (hwf : IndexWf pages) (excl : List Nat) :
    (buildLabelBlocksExcluding bs ctx pages excl).Pairwise disjointTargets := by
  unfold buildLabelBlocksExcluding
  exact buildBlocksFromRanges_pairwise hwf
    (labelRunsGo_spec excl pages pages 0 (by simp) none (by intro st h2; cases h2)).2

lemma visionBlocks_pairwise {ctx : Nat} {pages : List PageInfo} (hwf : IndexWf pages) :
    (visionBlocks ctx pages).Pairwise disjointTargets := by
  unfold visionBlocks
  rw [List.pairwise_filterMap]
  refine (visionIdxs_pairwise hwf).imp ?_
  intro v1 v2 hlt b1 hb1 b2 hb2 i hi1 hi2
  obtain ⟨b01, hb01, hr1⟩ := Option.map_eq_some'.mp hb1
  obtain ⟨b02, hb02, hr2⟩ := Option.map_eq_some'.mp hb2
  rw [← hr1] at hi1
  rw [← hr2] at hi2
  rw [retag_targets] at hi1 hi2
  obtain ⟨e1, e2, -, -⟩ := payload_target_mem hwf hb01 i hi1
  obtain ⟨e3, e4, -, -⟩ := payload_target_mem hwf hb02 i hi2
  omega

/-- The property bundle of claim C4: within each pass, every emitted block has at
least one target page, no two blocks share a target page, and a range whose
in-document pages are all final is suppressed (payload none). -/
def C4Statement (bs ctx : Nat) (pages : List PageInfo) (iter : Nat) : Prop :=
  (∀ b ∈ passBlocks bs ctx pages iter, targetIdxs b ≠ []) ∧
  (passBlocks bs ctx pages iter).Pairwise disjointTargets ∧
  (∀ ts te : Int, (∀ k : Nat, ts ≤ (k : Int) → (k : Int) ≤ te → k < pages.length →
      (pages.getD k default).is_final = true) →
    buildBlockPayload ctx pages ts te = none)

/-- C4: every block emitted for a pass (initial chunks on pass 0; label-run text
blocks and single-page vision blocks afterwards) contains at least one target
page; a block whose clipped target range is empty or all-final is suppressed; and
no two blocks of the same pass share a target page. -/
theorem C4_block_targets (bs ctx : Nat) (pages : List PageInfo) (iter : Nat)
    (hwf : IndexWf pages) : C4Statement bs ctx pages iter := by
  refine ⟨?_, ?_, fun ts te h => payload_none_of_final h⟩
  · intro b hb
    match iter with
    | 0 =>
      obtain ⟨b0, hb0, hretag⟩ := List.mem_map.mp hb
      obtain ⟨r, hr, cs2, ce2, g1, g2, g3, g4⟩ := buildBlocksFromRanges_mem hb0
      rw [← hretag, retag_targets]
      exact payload_has_target g4
    | n + 1 =>
      rcases List.mem_append.mp hb with hask | hvis
      · obtain ⟨b0, hb0, htg⟩ := askBlocks_mem hask
        obtain ⟨r, hr, cs2, ce2, g1, g2, g3, g4⟩ := buildBlocksFromRanges_mem hb0
        rw [htg]
        exact payload_has_target g4
      · obtain ⟨v, hv, b0, hb0, htg⟩ := visionBlocks_mem hvis
        rw [htg]
        exact payload_has_target hb0
  · match iter with
    | 0 =>
      refine pairwise_retag (buildBlocksFromRanges_pairwise hwf ?_)
      exact contiguousRanges_pairwise _ (filter_map_index_pairwise hwf _)
    | n + 1 =>
      show (askBlocks bs ctx pages ++ visionBlocks ctx pages).Pairwise disjointTargets
      rw [List.pairwise_append]
      refine ⟨pairwise_retag (buildLabelBlocksExcluding_pairwise hwf _),
        visionBlocks_pairwise hwf, ?_⟩
      intro ba hba bv hbv i hia hiv
      obtain ⟨v, hv, hvchar⟩ := visionBlocks_target hwf hbv
      have hnot := askBlocks_target hwf hba i hia
      have hiveq := hvchar i hiv
      rw [hiveq] at hnot
      exact hnot hv

def c4pages : List PageInfo := [initPage 0 "a", initPage 1 "b", initPage 2 "c"]

theorem C4_block_targets_witness : IndexWf c4pages ∧ C4Statement 2 1 c4pages 1 :=
  ⟨by unfold IndexWf; decide, C4_block_targets 2 1 c4pages 1 (by unfold IndexWf; decide)⟩

end AutoComply
